import Mathlib

/-!
Verification of the Baby Bear finite-field core (`risc0/zkp/rust/src/field/baby_bear.rs`)
and the guest I/O channel (`risc0/zkvm/sdk/rust/guest/src/io.rs`).

Machine integers are modelled as `Nat` with explicit wraparound (`% 2^32`, `% 2^64`)
exactly where the Rust code performs a wrapping operation or a narrowing cast.
-/

namespace BabyBear

/-- The modulus of the field (`const P: u32 = 15 * (1 << 27) + 1`). -/
def P : Nat := 2013265921

/-- 2^32, the wraparound modulus of `u32` arithmetic. -/
def U32 : Nat := 4294967296

/-- 2^64, the wraparound modulus of `u64` arithmetic. -/
def U64 : Nat := 18446744073709551616

theorem P_eq : P = 15 * 2 ^ 27 + 1 := by decide

namespace Elem

/-- `fn add(lhs: u32, rhs: u32) -> u32 { let x = lhs + rhs; if x >= P { x - P } else { x } }` -/
def add (lhs rhs : Nat) : Nat :=
  let x := lhs + rhs
  if P ≤ x then x - P else x

/-- `fn sub(lhs: u32, rhs: u32) -> u32`: wrapping subtraction, then `if x > P { x.wrapping_add(P) } else { x }`. -/
def sub (lhs rhs : Nat) : Nat :=
  let x := (lhs + (U32 - rhs % U32)) % U32
  if P < x then (x + P) % U32 else x

/-- `fn mul(lhs: u32, rhs: u32) -> u32 { (((lhs as u64) * (rhs as u64)) % P_U64) as u32 }` -/
def mul (lhs rhs : Nat) : Nat :=
  ((lhs * rhs) % P) % U32

/-- `Elem::new(x: u32)` and `From<u32>`: reduce mod `P`. -/
def new (x : Nat) : Nat := x % P

/-- `From<u64> for Elem`: `Elem((x % P_U64) as u32)`. -/
def fromU64 (x : Nat) : Nat := ((x % U64) % P) % U32

/-- `impl ops::Neg`: `Elem(0) - self`. -/
def neg (a : Nat) : Nat := sub 0 a

/-- Modelled from the spec: the base-field `pow` is a trait default of `field::Elem`
(not under `src/`), described as binary square-and-multiply exponentiation with
`a^0 == 1`; the loop shape mirrors the in-source `ExtElem::pow`.  The first
argument is fuel; since the exponent at least halves each step, fuel `n`
suffices for exponent `n`. -/
def powAux : Nat → Nat → Nat → Nat → Nat
  | 0, tot, _, _ => tot
  | fuel + 1, tot, x, n =>
    if n = 0 then tot
    else powAux fuel (if n % 2 = 1 then mul tot x else tot) (mul x x) (n / 2)

/-- Modelled from the spec: binary exponentiation entry point. -/
def pow (x n : Nat) : Nat := powAux n 1 x n

/-- `fn inv(self) -> Self { self.pow((P - 2) as usize) }` -/
def inv (a : Nat) : Nat := pow a (P - 2)

/-- `const REJECT_CUTOFF: u32 = (u32::MAX / P) * P;` -/
def REJECT_CUTOFF : Nat := (4294967295 / P) * P

/-- Modelled from the spec: `random` rejection-samples raw `u32` draws until one is
below `REJECT_CUTOFF`, then returns `Elem::from(val)`.  `random` models the
result for the accepted draw. -/
def random (draw : Nat) : Nat := draw % P

end Elem

/-! ## Naive 64-bit modular arithmetic (the spec's cross-check reference) -/

/-- Modelled from the spec: `(a + b) mod P` computed with 64-bit integer arithmetic. -/
def naiveAdd64 (a b : Nat) : Nat := ((a + b) % U64) % P

/-- Modelled from the spec: `(a - b) mod P` computed with 64-bit integer arithmetic
as in the repository's `compare_native` test, `a + (P_U64 - b)` reduced mod `P`. -/
def naiveSub64 (a b : Nat) : Nat := ((a + (P - b)) % U64) % P

/-- Modelled from the spec: `(a * b) mod P` computed with 64-bit integer arithmetic. -/
def naiveMul64 (a b : Nat) : Nat := ((a * b) % U64) % P

/-! ## Basic canonicity and characterization lemmas -/

theorem Elem.add_lt {a b : Nat} (ha : a < P) (hb : b < P) : Elem.add a b < P := by
  simp only [Elem.add, P] at *
  split <;> omega

theorem Elem.sub_lt {a b : Nat} (ha : a < P) (hb : b < P) : Elem.sub a b < P := by
  simp only [Elem.sub, P, U32] at *
  split <;> omega

theorem Elem.mul_lt (a b : Nat) : Elem.mul a b < P := by
  simp only [Elem.mul, P, U32]
  omega

theorem Elem.new_lt (x : Nat) : Elem.new x < P := by
  simp only [Elem.new, P]
  omega

theorem Elem.fromU64_lt (x : Nat) : Elem.fromU64 x < P := by
  simp only [Elem.fromU64, P, U64, U32]
  omega

theorem Elem.random_lt (draw : Nat) : Elem.random draw < P := by
  simp only [Elem.random, P]
  omega

theorem Elem.neg_lt {a : Nat} (ha : a < P) : Elem.neg a < P :=
  Elem.sub_lt (by simp only [P]; omega) ha

theorem Elem.sub_eq {a b : Nat} (ha : a < P) (hb : b < P) :
    Elem.sub a b = (a + (P - b)) % P := by
  simp only [Elem.sub, P, U32] at *
  split <;> omega

theorem Elem.add_eq {a b : Nat} (ha : a < P) (hb : b < P) :
    Elem.add a b = (a + b) % P := by
  simp only [Elem.add, P] at *
  split <;> omega

theorem Elem.mul_eq (a b : Nat) : Elem.mul a b = (a * b) % P := by
  simp only [Elem.mul, P, U32]
  omega

theorem Elem.powAux_lt {fuel tot x n : Nat} (htot : tot < P) :
    Elem.powAux fuel tot x n < P := by
  induction fuel generalizing tot x n with
  | zero => simpa [Elem.powAux] using htot
  | succ fuel ih =>
    simp only [Elem.powAux]
    split
    · exact htot
    · exact ih (by split <;> [exact Elem.mul_lt tot x; exact htot])

theorem Elem.pow_lt (x n : Nat) : Elem.pow x n < P :=
  Elem.powAux_lt (by simp only [P]; omega)

theorem Elem.inv_lt (a : Nat) : Elem.inv a < P := Elem.pow_lt a (P - 2)

/-- C1: for canonical inputs, `add`, `sub`, `mul` return the canonical representative
of `(a+b) mod P`, `(a-b) mod P` (as an integer remainder), `(a*b) mod P`, bit-for-bit
equal to the naive 64-bit modular computations. -/
theorem claim_C1 (a b : Nat) (ha : a < P) (hb : b < P) :
    Elem.add a b = (a + b) % P ∧
    (Elem.sub a b : Int) = ((a : Int) - (b : Int)) % (P : Int) ∧
    Elem.mul a b = (a * b) % P ∧
    Elem.add a b = naiveAdd64 a b ∧
    Elem.sub a b = naiveSub64 a b ∧
    Elem.mul a b = naiveMul64 a b := by
  refine ⟨Elem.add_eq ha hb, ?_, Elem.mul_eq a b, ?_, ?_, ?_⟩
  · rw [Elem.sub_eq ha hb]
    simp only [P] at *
    omega
  · rw [Elem.add_eq ha hb]
    simp only [naiveAdd64, P, U64] at *
    omega
  · rw [Elem.sub_eq ha hb]
    simp only [naiveSub64, P, U64] at *
    omega
  · rw [Elem.mul_eq a b]
    simp only [naiveMul64, P, U64] at *
    have hab : a * b ≤ 2013265920 * 2013265920 := Nat.mul_le_mul (by omega) (by omega)
    omega

/-! ## Bridge to `ZMod P` -/

/-- The mathematical base field. -/
abbrev K : Type := ZMod P

instance : NeZero P := ⟨by unfold P; omega⟩

theorem Elem.new_toK (x : Nat) : ((Elem.new x : Nat) : K) = (x : K) :=
  ZMod.natCast_mod x P

theorem Elem.add_toK (a b : Nat) : ((Elem.add a b : Nat) : K) = (a : K) + (b : K) := by
  simp only [Elem.add]
  split
  · next h =>
    rw [Nat.cast_sub h]
    push_cast
    rw [ZMod.natCast_self]
    ring
  · push_cast
    ring

theorem Elem.mul_toK (a b : Nat) : ((Elem.mul a b : Nat) : K) = (a : K) * (b : K) := by
  rw [Elem.mul_eq, ZMod.natCast_mod]
  push_cast
  ring

theorem Elem.sub_toK {a b : Nat} (ha : a < P) (hb : b < P) :
    ((Elem.sub a b : Nat) : K) = (a : K) - (b : K) := by
  rw [Elem.sub_eq ha hb, ZMod.natCast_mod, Nat.cast_add, Nat.cast_sub hb.le]
  rw [ZMod.natCast_self]
  ring

theorem Elem.neg_toK {a : Nat} (ha : a < P) : ((Elem.neg a : Nat) : K) = -(a : K) := by
  rw [Elem.neg, Elem.sub_toK (by simp only [P]; omega) ha]
  push_cast
  ring

theorem Elem.powAux_toK {fuel tot x n : Nat} (h : n ≤ fuel) :
    ((Elem.powAux fuel tot x n : Nat) : K) = (tot : K) * (x : K) ^ n := by
  induction fuel generalizing tot x n with
  | zero =>
    have hn : n = 0 := Nat.le_zero.mp h
    subst hn
    simp [Elem.powAux]
  | succ fuel ih =>
    simp only [Elem.powAux]
    split
    · next hn => subst hn; simp
    · next hn =>
      have hfuel : n / 2 ≤ fuel := by omega
      rw [ih hfuel]
      have hsplit : n = 2 * (n / 2) + n % 2 := (Nat.div_add_mod n 2).symm
      rcases Nat.mod_two_eq_zero_or_one n with h2 | h2
      · rw [if_neg (by omega), Elem.mul_toK]
        calc (tot : K) * ((x : K) * (x : K)) ^ (n / 2)
            = (tot : K) * (x : K) ^ (2 * (n / 2) + n % 2) := by
              rw [h2, Nat.add_zero, pow_mul]
              ring
          _ = (tot : K) * (x : K) ^ n := by rw [← hsplit]
      · rw [if_pos h2, Elem.mul_toK, Elem.mul_toK]
        calc (tot : K) * (x : K) * ((x : K) * (x : K)) ^ (n / 2)
            = (tot : K) * (x : K) ^ (2 * (n / 2) + n % 2) := by
              rw [h2, pow_succ, pow_mul]
              ring
          _ = (tot : K) * (x : K) ^ n := by rw [← hsplit]

theorem Elem.pow_toK (x n : Nat) : ((Elem.pow x n : Nat) : K) = (x : K) ^ n := by
  rw [Elem.pow, Elem.powAux_toK le_rfl]
  push_cast
  ring

theorem toK_inj {a b : Nat} (ha : a < P) (hb : b < P) (h : ((a : Nat) : K) = (b : Nat)) :
    a = b := by
  have := congrArg ZMod.val h
  rwa [ZMod.val_cast_of_lt ha, ZMod.val_cast_of_lt hb] at this

/-! ## Primality of `P` via the Lucas primality test with witness 31 -/

theorem lucas_pow_full : Elem.pow 31 2013265920 = 1 := by decide

theorem lucas_pow_half : Elem.pow 31 1006632960 = 2013265920 := by decide

theorem lucas_pow_third : Elem.pow 31 671088640 = 1314723123 := by decide

theorem lucas_pow_fifth : Elem.pow 31 402653184 = 645581151 := by decide

theorem toK_pow_ne_one {x n v : Nat} (hx : Elem.pow x n = v) (hv : v < P) (hvne : v ≠ 1) :
    ((x : Nat) : K) ^ n ≠ 1 := by
  intro h1
  rw [← Elem.pow_toK, hx] at h1
  exact hvne (toK_inj hv (by simp only [P]; omega) (by rw [h1]; push_cast; ring))

theorem P_prime : Nat.Prime P := by
  have hP1 : P - 1 = 2013265920 := by simp only [P]
  apply lucas_primality P ((31 : Nat) : K)
  · rw [hP1, ← Elem.pow_toK, lucas_pow_full]
    push_cast
    ring
  · intro q hq hdvd
    rw [hP1] at hdvd
    have hfac : (2013265920 : Nat) = 2 ^ 27 * 3 * 5 := by norm_num
    rw [hfac] at hdvd
    have hq235 : q = 2 ∨ q = 3 ∨ q = 5 := by
      rcases (Nat.Prime.dvd_mul hq).mp hdvd with h35 | h5
      · rcases (Nat.Prime.dvd_mul hq).mp h35 with h2 | h3
        · exact Or.inl ((Nat.prime_dvd_prime_iff_eq hq Nat.prime_two).mp
            (Nat.Prime.dvd_of_dvd_pow hq h2))
        · exact Or.inr (Or.inl ((Nat.prime_dvd_prime_iff_eq hq Nat.prime_three).mp h3))
      · exact Or.inr (Or.inr ((Nat.prime_dvd_prime_iff_eq hq (by norm_num)).mp h5))
    rw [hP1]
    rcases hq235 with rfl | rfl | rfl
    · have he : (2013265920 : Nat) / 2 = 1006632960 := by norm_num
      rw [he]
      exact toK_pow_ne_one lucas_pow_half (by simp only [P]; omega) (by omega)
    · have he : (2013265920 : Nat) / 3 = 671088640 := by norm_num
      rw [he]
      exact toK_pow_ne_one lucas_pow_third (by simp only [P]; omega) (by omega)
    · have he : (2013265920 : Nat) / 5 = 402653184 := by norm_num
      rw [he]
      exact toK_pow_ne_one lucas_pow_fifth (by simp only [P]; omega) (by omega)

instance : Fact (Nat.Prime P) := ⟨P_prime⟩

theorem toK_ne_zero {a : Nat} (ha : a < P) (h : a ≠ 0) : ((a : Nat) : K) ≠ 0 := by
  intro h0
  exact h (toK_inj ha (by simp only [P]; omega) (by rw [h0]; push_cast; ring))

/-- Witness for C1 at `a = 5`, `b = 2013265920`. -/
theorem claim_C1_witness :
    Elem.add 5 2013265920 = (5 + 2013265920) % P ∧
    (Elem.sub 5 2013265920 : Int) = ((5 : Int) - (2013265920 : Int)) % (P : Int) ∧
    Elem.mul 5 2013265920 = (5 * 2013265920) % P ∧
    Elem.add 5 2013265920 = naiveAdd64 5 2013265920 ∧
    Elem.sub 5 2013265920 = naiveSub64 5 2013265920 ∧
    Elem.mul 5 2013265920 = naiveMul64 5 2013265920 :=
  claim_C1 5 2013265920 (by decide) (by decide)

/-- C5: base-field inversion is `pow (P-2)`, and Fermat's little theorem holds for
nonzero canonical elements. -/
theorem claim_C5 (a : Nat) (ha : a < P) :
    Elem.inv a = Elem.pow a (P - 2) ∧
    (a ≠ 0 → Elem.mul (Elem.inv a) a = 1 ∧ Elem.pow a (P - 1) = 1) := by
  refine ⟨rfl, fun h0 => ⟨?_, ?_⟩⟩
  · apply toK_inj (Elem.mul_lt _ _) (by simp only [P]; omega)
    rw [Elem.mul_toK, Elem.inv, Elem.pow_toK]
    have hstep : (a : K) ^ (P - 2) * (a : K) = (a : K) ^ (P - 1) := by
      rw [← pow_succ]
      have : P - 2 + 1 = P - 1 := by simp only [P]
      rw [this]
    rw [hstep, ZMod.pow_card_sub_one_eq_one (toK_ne_zero ha h0)]
    push_cast
    ring
  · apply toK_inj (Elem.pow_lt _ _) (by simp only [P]; omega)
    rw [Elem.pow_toK, ZMod.pow_card_sub_one_eq_one (toK_ne_zero ha h0)]
    push_cast
    ring

/-- Witness for C5 at `a = 5`. -/
theorem claim_C5_witness :
    Elem.inv 5 = Elem.pow 5 (P - 2) ∧
    (5 ≠ 0 → Elem.mul (Elem.inv 5) 5 = 1 ∧ Elem.pow 5 (P - 1) = 1) :=
  claim_C5 5 (by decide)

/-! ## The degree-4 extension field `ExtElem` -/

/-- `pub struct ExtElem([Elem; EXT_SIZE])` with `EXT_SIZE = 4`: four base-field
coefficients of `a0 + a1 x + a2 x^2 + a3 x^3`. -/
structure ExtElem where
  c0 : Nat
  c1 : Nat
  c2 : Nat
  c3 : Nat
deriving DecidableEq

/-- `const BETA: Elem = Elem::new(11);` -/
def BETA : Nat := Elem.new 11

/-- `const NBETA: Elem = Elem::new(P - 11);` -/
def NBETA : Nat := Elem.new (P - 11)

/-- `ExtElem::from_u32` / `From<u32>`: place the reduced scalar in coefficient 0. -/
def ExtElem.from_u32 (x0 : Nat) : ExtElem :=
  ⟨Elem.new x0, Elem.new 0, Elem.new 0, Elem.new 0⟩

/-- `From<Elem> for ExtElem` / `from_fp` / `from_subfield`: `[x, ZERO, ZERO, ZERO]`. -/
def ExtElem.fromElem (x : Nat) : ExtElem := ⟨x, 0, 0, 0⟩

/-- `ExtElem::ZERO`. -/
def ExtElem.zero : ExtElem := ExtElem.from_u32 0

/-- `ExtElem::ONE`. -/
def ExtElem.one : ExtElem := ExtElem.from_u32 1

/-- `impl ops::AddAssign for ExtElem`: coefficient-wise base-field addition. -/
def ExtElem.add (a b : ExtElem) : ExtElem :=
  ⟨Elem.add a.c0 b.c0, Elem.add a.c1 b.c1, Elem.add a.c2 b.c2, Elem.add a.c3 b.c3⟩

/-- `impl ops::SubAssign for ExtElem`: coefficient-wise base-field subtraction. -/
def ExtElem.sub (a b : ExtElem) : ExtElem :=
  ⟨Elem.sub a.c0 b.c0, Elem.sub a.c1 b.c1, Elem.sub a.c2 b.c2, Elem.sub a.c3 b.c3⟩

/-- `impl ops::Neg for ExtElem`: `ExtElem::ZERO - self`. -/
def ExtElem.neg (a : ExtElem) : ExtElem := ExtElem.sub ExtElem.zero a

/-- `impl ops::MulAssign<Elem> for ExtElem`: scalar multiplication coefficient-wise. -/
def ExtElem.scale (a : ExtElem) (rhs : Nat) : ExtElem :=
  ⟨Elem.mul a.c0 rhs, Elem.mul a.c1 rhs, Elem.mul a.c2 rhs, Elem.mul a.c3 rhs⟩

/-- `impl ops::MulAssign for ExtElem`: polynomial product with degree-4-and-up terms
folded back through `NBETA`, exactly as hand-written in the source. -/
def ExtElem.mul (a b : ExtElem) : ExtElem :=
  ⟨Elem.add (Elem.mul a.c0 b.c0)
      (Elem.mul NBETA (Elem.add (Elem.add (Elem.mul a.c1 b.c3) (Elem.mul a.c2 b.c2))
        (Elem.mul a.c3 b.c1))),
   Elem.add (Elem.add (Elem.mul a.c0 b.c1) (Elem.mul a.c1 b.c0))
      (Elem.mul NBETA (Elem.add (Elem.mul a.c2 b.c3) (Elem.mul a.c3 b.c2))),
   Elem.add (Elem.add (Elem.add (Elem.mul a.c0 b.c2) (Elem.mul a.c1 b.c1))
      (Elem.mul a.c2 b.c0)) (Elem.mul NBETA (Elem.mul a.c3 b.c3)),
   Elem.add (Elem.add (Elem.add (Elem.mul a.c0 b.c3) (Elem.mul a.c1 b.c2))
      (Elem.mul a.c2 b.c1)) (Elem.mul a.c3 b.c0)⟩

/-- `ExtElem::pow` loop body (`while n != 0 { if n % 2 == 1 { tot *= x; } n /= 2; x *= x; }`),
with fuel as the first argument. -/
def ExtElem.powAux : Nat → ExtElem → ExtElem → Nat → ExtElem
  | 0, tot, _, _ => tot
  | fuel + 1, tot, x, n =>
    if n = 0 then tot
    else ExtElem.powAux fuel (if n % 2 = 1 then ExtElem.mul tot x else tot)
      (ExtElem.mul x x) (n / 2)

/-- `ExtElem::pow`: binary exponentiation starting from `ExtElem::from(1)`. -/
def ExtElem.pow (x : ExtElem) (n : Nat) : ExtElem :=
  ExtElem.powAux n (ExtElem.from_u32 1) x n

/-- `ExtElem::inv`: the specialized conjugate inversion from the source, verbatim. -/
def ExtElem.inv (a : ExtElem) : ExtElem :=
  let b0 := Elem.add (Elem.mul a.c0 a.c0)
    (Elem.mul BETA (Elem.sub (Elem.mul a.c1 (Elem.add a.c3 a.c3)) (Elem.mul a.c2 a.c2)))
  let b2 := Elem.add (Elem.sub (Elem.mul a.c0 (Elem.add a.c2 a.c2)) (Elem.mul a.c1 a.c1))
    (Elem.mul BETA (Elem.mul a.c3 a.c3))
  let c := Elem.add (Elem.mul b0 b0) (Elem.mul (Elem.mul BETA b2) b2)
  let ic := Elem.inv c
  let b0s := Elem.mul b0 ic
  let b2s := Elem.mul b2 ic
  ⟨Elem.add (Elem.mul a.c0 b0s) (Elem.mul (Elem.mul BETA a.c2) b2s),
   Elem.add (Elem.mul (Elem.neg a.c1) b0s) (Elem.mul (Elem.mul NBETA a.c3) b2s),
   Elem.add (Elem.mul (Elem.neg a.c0) b2s) (Elem.mul a.c2 b0s),
   Elem.sub (Elem.mul a.c1 b2s) (Elem.mul a.c3 b0s)⟩

/-- All four coefficients are canonical (in `[0, P)`). -/
def ExtElem.canon (a : ExtElem) : Prop :=
  a.c0 < P ∧ a.c1 < P ∧ a.c2 < P ∧ a.c3 < P

instance (a : ExtElem) : Decidable a.canon := by
  unfold ExtElem.canon
  infer_instance

theorem ExtElem.add_canon {a b : ExtElem} (ha : a.canon) (hb : b.canon) :
    (ExtElem.add a b).canon :=
  ⟨Elem.add_lt ha.1 hb.1, Elem.add_lt ha.2.1 hb.2.1, Elem.add_lt ha.2.2.1 hb.2.2.1,
   Elem.add_lt ha.2.2.2 hb.2.2.2⟩

theorem ExtElem.sub_canon {a b : ExtElem} (ha : a.canon) (hb : b.canon) :
    (ExtElem.sub a b).canon :=
  ⟨Elem.sub_lt ha.1 hb.1, Elem.sub_lt ha.2.1 hb.2.1, Elem.sub_lt ha.2.2.1 hb.2.2.1,
   Elem.sub_lt ha.2.2.2 hb.2.2.2⟩

theorem ExtElem.from_u32_canon (x : Nat) : (ExtElem.from_u32 x).canon :=
  ⟨Elem.new_lt x, Elem.new_lt 0, Elem.new_lt 0, Elem.new_lt 0⟩

theorem ExtElem.zero_canon : ExtElem.zero.canon := ExtElem.from_u32_canon 0

theorem ExtElem.one_canon : ExtElem.one.canon := ExtElem.from_u32_canon 1

theorem ExtElem.fromElem_canon {a : Nat} (ha : a < P) : (ExtElem.fromElem a).canon := by
  have hP0 : (0 : Nat) < P := by simp only [P]; omega
  exact ⟨ha, hP0, hP0, hP0⟩

theorem ExtElem.neg_canon {a : ExtElem} (ha : a.canon) : (ExtElem.neg a).canon :=
  ExtElem.sub_canon ExtElem.zero_canon ha

theorem ExtElem.mul_canon (a b : ExtElem) : (ExtElem.mul a b).canon :=
  ⟨Elem.add_lt (Elem.mul_lt _ _) (Elem.mul_lt _ _),
   Elem.add_lt (Elem.add_lt (Elem.mul_lt _ _) (Elem.mul_lt _ _)) (Elem.mul_lt _ _),
   Elem.add_lt (Elem.add_lt (Elem.add_lt (Elem.mul_lt _ _) (Elem.mul_lt _ _))
     (Elem.mul_lt _ _)) (Elem.mul_lt _ _),
   Elem.add_lt (Elem.add_lt (Elem.add_lt (Elem.mul_lt _ _) (Elem.mul_lt _ _))
     (Elem.mul_lt _ _)) (Elem.mul_lt _ _)⟩

theorem ExtElem.scale_canon (a : ExtElem) (r : Nat) : (ExtElem.scale a r).canon :=
  ⟨Elem.mul_lt _ _, Elem.mul_lt _ _, Elem.mul_lt _ _, Elem.mul_lt _ _⟩

theorem ExtElem.powAux_canon {fuel : Nat} {tot x : ExtElem} {n : Nat} (htot : tot.canon) :
    (ExtElem.powAux fuel tot x n).canon := by
  induction fuel generalizing tot x n with
  | zero => simpa [ExtElem.powAux] using htot
  | succ fuel ih =>
    simp only [ExtElem.powAux]
    split
    · exact htot
    · exact ih (by split <;> [exact ExtElem.mul_canon tot x; exact htot])

theorem ExtElem.pow_canon (x : ExtElem) (n : Nat) : (ExtElem.pow x n).canon :=
  ExtElem.powAux_canon (ExtElem.from_u32_canon 1)

theorem ExtElem.inv_canon (a : ExtElem) : (ExtElem.inv a).canon := by
  simp only [ExtElem.inv, ExtElem.canon]
  exact ⟨Elem.add_lt (Elem.mul_lt _ _) (Elem.mul_lt _ _),
    Elem.add_lt (Elem.mul_lt _ _) (Elem.mul_lt _ _),
    Elem.add_lt (Elem.mul_lt _ _) (Elem.mul_lt _ _),
    Elem.sub_lt (Elem.mul_lt _ _) (Elem.mul_lt _ _)⟩

/-! ## Quadratic non-residues: both 11 and -11 are non-squares mod P -/

theorem eleven_pow_half : Elem.pow 11 1006632960 = 2013265920 := by decide

theorem neg_eleven_pow_half : Elem.pow 2013265910 1006632960 = 2013265920 := by decide

theorem pow_half_contra {v : Nat} (hv : ((v : Nat) : K) = ((2013265920 : Nat) : K))
    (h1 : ((v : Nat) : K) = 1) : False := by
  rw [h1] at hv
  have h2 : ((1 : Nat) : K) = ((2013265920 : Nat) : K) := by
    rw [Nat.cast_one]
    exact hv
  have := toK_inj (by simp only [P]; omega) (by simp only [P]; omega) h2
  omega

theorem sq_ne_eleven (u : K) : u ^ 2 ≠ (11 : K) := by
  intro h
  have hu : u ≠ 0 := by
    intro h0
    rw [h0] at h
    have h11 : (11 : K) = 0 := by
      rw [← h]
      ring
    exact (by decide : (11 : K) ≠ 0) h11
  have hcomp : ((11 : Nat) : K) ^ 1006632960 = ((2013265920 : Nat) : K) := by
    rw [← Elem.pow_toK, eleven_pow_half]
  have h11 : ((11 : Nat) : K) = u ^ 2 := by
    push_cast
    exact h.symm
  rw [h11, ← pow_mul] at hcomp
  have hfull : u ^ (2 * 1006632960) = 1 := by
    have he : 2 * 1006632960 = P - 1 := by simp only [P]
    rw [he]
    exact ZMod.pow_card_sub_one_eq_one hu
  rw [hfull] at hcomp
  exact pow_half_contra (v := 1) (by rw [Nat.cast_one]; exact hcomp) (by rw [Nat.cast_one])

theorem neg_eleven_toK : ((2013265910 : Nat) : K) = (-11 : K) := by
  have h1 : (2013265910 : Nat) = P - 11 := by simp only [P]
  rw [h1, Nat.cast_sub (by simp only [P]; omega), ZMod.natCast_self]
  push_cast
  ring

theorem sq_ne_neg_eleven (u : K) : u ^ 2 ≠ (-11 : K) := by
  intro h
  have hu : u ≠ 0 := by
    intro h0
    rw [h0] at h
    have h11 : (11 : K) = 0 := by linear_combination h
    exact (by decide : (11 : K) ≠ 0) h11
  have hcomp : ((2013265910 : Nat) : K) ^ 1006632960 = ((2013265920 : Nat) : K) := by
    rw [← Elem.pow_toK, neg_eleven_pow_half]
  rw [neg_eleven_toK, ← h, ← pow_mul] at hcomp
  have hfull : u ^ (2 * 1006632960) = 1 := by
    have he : 2 * 1006632960 = P - 1 := by simp only [P]
    rw [he]
    exact ZMod.pow_card_sub_one_eq_one hu
  rw [hfull] at hcomp
  exact pow_half_contra (v := 1) (by rw [Nat.cast_one]; exact hcomp) (by rw [Nat.cast_one])

/-- In `K`, raising to `P - 2` is the field inverse (including at zero). -/
theorem K_pow_sub_two (x : K) : x ^ (P - 2) = x⁻¹ := by
  rcases eq_or_ne x 0 with h | h
  · rw [h, zero_pow (by simp only [P]; omega : P - 2 ≠ 0), inv_zero]
  · apply eq_inv_of_mul_eq_one_left
    rw [← pow_succ]
    have he : P - 2 + 1 = P - 1 := by simp only [P]
    rw [he]
    exact ZMod.pow_card_sub_one_eq_one h

theorem Elem.inv_toK (c : Nat) : ((Elem.inv c : Nat) : K) = ((c : Nat) : K)⁻¹ := by
  rw [Elem.inv, Elem.pow_toK, K_pow_sub_two]

theorem BETA_toK : ((BETA : Nat) : K) = (11 : K) := by
  rw [BETA, Elem.new_toK]
  push_cast
  ring

theorem NBETA_toK : ((NBETA : Nat) : K) = (-11 : K) := by
  rw [NBETA, Elem.new_toK]
  have h1 : ((P - 11 : Nat) : K) = ((P : Nat) : K) - ((11 : Nat) : K) :=
    Nat.cast_sub (by simp only [P]; omega)
  rw [h1, ZMod.natCast_self]
  push_cast
  ring

/-! ## The mathematical extension field `ExtK = K[x]/(x^4 + 11)` -/

/-- The extension field over `K` with the multiplication law of the source
(`x^4` folds back with coefficient `-11`). -/
@[ext]
structure ExtK where
  c0 : K
  c1 : K
  c2 : K
  c3 : K

namespace ExtK

instance : Zero ExtK := ⟨⟨0, 0, 0, 0⟩⟩

instance : One ExtK := ⟨⟨1, 0, 0, 0⟩⟩

instance : Add ExtK := ⟨fun a b => ⟨a.c0 + b.c0, a.c1 + b.c1, a.c2 + b.c2, a.c3 + b.c3⟩⟩

instance : Neg ExtK := ⟨fun a => ⟨-a.c0, -a.c1, -a.c2, -a.c3⟩⟩

instance : Mul ExtK :=
  ⟨fun a b =>
    ⟨a.c0 * b.c0 - 11 * (a.c1 * b.c3 + a.c2 * b.c2 + a.c3 * b.c1),
     a.c0 * b.c1 + a.c1 * b.c0 - 11 * (a.c2 * b.c3 + a.c3 * b.c2),
     a.c0 * b.c2 + a.c1 * b.c1 + a.c2 * b.c0 - 11 * (a.c3 * b.c3),
     a.c0 * b.c3 + a.c1 * b.c2 + a.c2 * b.c1 + a.c3 * b.c0⟩⟩

@[simp] theorem zero_c0 : (0 : ExtK).c0 = 0 := rfl

@[simp] theorem zero_c1 : (0 : ExtK).c1 = 0 := rfl

@[simp] theorem zero_c2 : (0 : ExtK).c2 = 0 := rfl

@[simp] theorem zero_c3 : (0 : ExtK).c3 = 0 := rfl

@[simp] theorem one_c0 : (1 : ExtK).c0 = 1 := rfl

@[simp] theorem one_c1 : (1 : ExtK).c1 = 0 := rfl

@[simp] theorem one_c2 : (1 : ExtK).c2 = 0 := rfl

@[simp] theorem one_c3 : (1 : ExtK).c3 = 0 := rfl

@[simp] theorem add_c0 (a b : ExtK) : (a + b).c0 = a.c0 + b.c0 := rfl

@[simp] theorem add_c1 (a b : ExtK) : (a + b).c1 = a.c1 + b.c1 := rfl

@[simp] theorem add_c2 (a b : ExtK) : (a + b).c2 = a.c2 + b.c2 := rfl

@[simp] theorem add_c3 (a b : ExtK) : (a + b).c3 = a.c3 + b.c3 := rfl

@[simp] theorem neg_c0 (a : ExtK) : (-a).c0 = -a.c0 := rfl

@[simp] theorem neg_c1 (a : ExtK) : (-a).c1 = -a.c1 := rfl

@[simp] theorem neg_c2 (a : ExtK) : (-a).c2 = -a.c2 := rfl

@[simp] theorem neg_c3 (a : ExtK) : (-a).c3 = -a.c3 := rfl

@[simp] theorem mul_c0 (a b : ExtK) :
    (a * b).c0 = a.c0 * b.c0 - 11 * (a.c1 * b.c3 + a.c2 * b.c2 + a.c3 * b.c1) := rfl

@[simp] theorem mul_c1 (a b : ExtK) :
    (a * b).c1 = a.c0 * b.c1 + a.c1 * b.c0 - 11 * (a.c2 * b.c3 + a.c3 * b.c2) := rfl

@[simp] theorem mul_c2 (a b : ExtK) :
    (a * b).c2 = a.c0 * b.c2 + a.c1 * b.c1 + a.c2 * b.c0 - 11 * (a.c3 * b.c3) := rfl

@[simp] theorem mul_c3 (a b : ExtK) :
    (a * b).c3 = a.c0 * b.c3 + a.c1 * b.c2 + a.c2 * b.c1 + a.c3 * b.c0 := rfl

instance instAddCommGroup : AddCommGroup ExtK where
  add_assoc a b c := by ext <;> simp only [add_c0, add_c1, add_c2, add_c3] <;> ring
  zero_add a := by
    ext <;> simp only [add_c0, add_c1, add_c2, add_c3, zero_c0, zero_c1, zero_c2, zero_c3] <;>
      ring
  add_zero a := by
    ext <;> simp only [add_c0, add_c1, add_c2, add_c3, zero_c0, zero_c1, zero_c2, zero_c3] <;>
      ring
  add_comm a b := by ext <;> simp only [add_c0, add_c1, add_c2, add_c3] <;> ring
  neg_add_cancel a := by
    ext <;> simp only [add_c0, add_c1, add_c2, add_c3, neg_c0, neg_c1, neg_c2, neg_c3,
      zero_c0, zero_c1, zero_c2, zero_c3] <;> ring
  nsmul := nsmulRec
  zsmul := zsmulRec

instance instCommRing : CommRing ExtK :=
  { instAddCommGroup with
    mul_assoc := fun a b c => by
      ext <;> simp only [mul_c0, mul_c1, mul_c2, mul_c3] <;> ring
    one_mul := fun a => by
      ext <;> simp only [mul_c0, mul_c1, mul_c2, mul_c3, one_c0, one_c1, one_c2, one_c3] <;> ring
    mul_one := fun a => by
      ext <;> simp only [mul_c0, mul_c1, mul_c2, mul_c3, one_c0, one_c1, one_c2, one_c3] <;> ring
    mul_comm := fun a b => by
      ext <;> simp only [mul_c0, mul_c1, mul_c2, mul_c3] <;> ring
    left_distrib := fun a b c => by
      ext <;> simp only [mul_c0, mul_c1, mul_c2, mul_c3, add_c0, add_c1, add_c2, add_c3] <;> ring
    right_distrib := fun a b c => by
      ext <;> simp only [mul_c0, mul_c1, mul_c2, mul_c3, add_c0, add_c1, add_c2, add_c3] <;> ring
    zero_mul := fun a => by
      ext <;> simp only [mul_c0, mul_c1, mul_c2, mul_c3, zero_c0, zero_c1, zero_c2, zero_c3] <;>
        ring
    mul_zero := fun a => by
      ext <;> simp only [mul_c0, mul_c1, mul_c2, mul_c3, zero_c0, zero_c1, zero_c2, zero_c3] <;>
        ring }

theorem zero_def : (0 : ExtK) = ⟨0, 0, 0, 0⟩ := rfl

theorem one_def : (1 : ExtK) = ⟨1, 0, 0, 0⟩ := rfl

/-- The inversion algorithm of the source, transcribed over `K`. -/
def inv (a : ExtK) : ExtK :=
  let b0 := a.c0 * a.c0 + 11 * (a.c1 * (a.c3 + a.c3) - a.c2 * a.c2)
  let b2 := a.c0 * (a.c2 + a.c2) - a.c1 * a.c1 + 11 * (a.c3 * a.c3)
  let c := b0 * b0 + 11 * b2 * b2
  let ic := c⁻¹
  let b0s := b0 * ic
  let b2s := b2 * ic
  ⟨a.c0 * b0s + 11 * a.c2 * b2s, -a.c1 * b0s + -11 * a.c3 * b2s,
   -a.c0 * b2s + a.c2 * b0s, a.c1 * b2s - a.c3 * b0s⟩

/-- The denominator `c = b0^2 + 11*b2^2` of the inversion algorithm vanishes only at zero. -/
theorem cval_ne_zero (a0 a1 a2 a3 : K)
    (hne : ¬(a0 = 0 ∧ a1 = 0 ∧ a2 = 0 ∧ a3 = 0)) :
    (a0 * a0 + 11 * (a1 * (a3 + a3) - a2 * a2)) * (a0 * a0 + 11 * (a1 * (a3 + a3) - a2 * a2))
      + 11 * (a0 * (a2 + a2) - a1 * a1 + 11 * (a3 * a3))
        * (a0 * (a2 + a2) - a1 * a1 + 11 * (a3 * a3)) ≠ 0 := by
  intro hc
  have hb2 : a0 * (a2 + a2) - a1 * a1 + 11 * (a3 * a3) = 0 := by
    by_contra hb2ne
    apply sq_ne_neg_eleven ((a0 * a0 + 11 * (a1 * (a3 + a3) - a2 * a2))
      * (a0 * (a2 + a2) - a1 * a1 + 11 * (a3 * a3))⁻¹)
    field_simp
    linear_combination hc
  have hb0 : a0 * a0 + 11 * (a1 * (a3 + a3) - a2 * a2) = 0 := by
    have hsq : (a0 * a0 + 11 * (a1 * (a3 + a3) - a2 * a2))
        * (a0 * a0 + 11 * (a1 * (a3 + a3) - a2 * a2)) = 0 := by
      linear_combination hc - (11 * (a0 * (a2 + a2) - a1 * a1 + 11 * (a3 * a3))) * hb2
    exact mul_self_eq_zero.mp hsq
  have hkey : (a0 * a0 + 11 * (a2 * a2)) * (a0 * a0 + 11 * (a2 * a2))
      = 11 * ((a1 * a1 + 11 * (a3 * a3)) * (a1 * a1 + 11 * (a3 * a3))) := by
    linear_combination (a0 * a0 + 11 * (a1 * (a3 + a3) - a2 * a2) - 44 * a1 * a3) * hb0
      + (11 * (a0 * (a2 + a2) - a1 * a1 + 11 * (a3 * a3))
          + 22 * (a1 * a1 - 11 * (a3 * a3))) * hb2
  have hnb : a1 * a1 + 11 * (a3 * a3) = 0 := by
    by_contra hnbne
    apply sq_ne_eleven ((a0 * a0 + 11 * (a2 * a2)) * (a1 * a1 + 11 * (a3 * a3))⁻¹)
    field_simp
    linear_combination hkey
  have ha3 : a3 = 0 := by
    by_contra ha3ne
    apply sq_ne_neg_eleven (a1 * a3⁻¹)
    field_simp
    linear_combination hnb
  have ha1 : a1 = 0 := by
    have hsq : a1 * a1 = 0 := by
      rw [ha3] at hnb
      linear_combination hnb
    exact mul_self_eq_zero.mp hsq
  have ha2 : a2 = 0 := by
    by_contra ha2ne
    apply sq_ne_eleven (a0 * a2⁻¹)
    field_simp
    rw [ha1, ha3] at hb0
    linear_combination hb0
  have ha0 : a0 = 0 := by
    have hsq : a0 * a0 = 0 := by
      rw [ha1, ha2, ha3] at hb0
      linear_combination hb0
    exact mul_self_eq_zero.mp hsq
  exact hne ⟨ha0, ha1, ha2, ha3⟩

theorem eq_zero_iff (a : ExtK) : a = 0 ↔ (a.c0 = 0 ∧ a.c1 = 0 ∧ a.c2 = 0 ∧ a.c3 = 0) := by
  obtain ⟨x0, x1, x2, x3⟩ := a
  rw [zero_def]
  simp

theorem ne_zero_iff (a : ExtK) : a ≠ 0 ↔ ¬(a.c0 = 0 ∧ a.c1 = 0 ∧ a.c2 = 0 ∧ a.c3 = 0) :=
  not_congr (eq_zero_iff a)

theorem mul_inv_cancel_extK (a : ExtK) (ha : a ≠ 0) : a * ExtK.inv a = 1 := by
  obtain ⟨a0, a1, a2, a3⟩ := a
  have hne := (ne_zero_iff _).mp ha
  simp only at hne
  have hc := cval_ne_zero a0 a1 a2 a3 hne
  have hic := mul_inv_cancel₀ hc
  ext <;> simp only [inv, mul_c0, mul_c1, mul_c2, mul_c3, one_c0, one_c1, one_c2, one_c3]
  · linear_combination hic
  · ring
  · ring
  · ring

instance instField : Field ExtK :=
  { instCommRing with
    inv := ExtK.inv
    exists_pair_ne := ⟨0, 1, by
      intro h
      have h0 := congrArg ExtK.c0 h
      simp only [zero_def, one_def] at h0
      exact (by decide : (0 : K) ≠ 1) h0⟩
    mul_inv_cancel := mul_inv_cancel_extK
    inv_zero := by
      show ExtK.inv 0 = 0
      simp only [inv, zero_def]
      norm_num
    nnqsmul := _
    qsmul := _ }

def extKEquiv : (K × K × K × K) ≃ ExtK where
  toFun p := ⟨p.1, p.2.1, p.2.2.1, p.2.2.2⟩
  invFun a := (a.c0, a.c1, a.c2, a.c3)
  left_inv _ := rfl
  right_inv _ := rfl

instance instFintype : Fintype ExtK := Fintype.ofEquiv _ extKEquiv

theorem card_extK : Fintype.card ExtK = P ^ 4 := by
  rw [Fintype.card_congr extKEquiv.symm]
  rw [Fintype.card_prod, Fintype.card_prod, Fintype.card_prod, ZMod.card]
  ring

theorem fermat_extK (a : ExtK) (ha : a ≠ 0) : a ^ (P ^ 4 - 1) = 1 := by
  rw [← card_extK]
  exact FiniteField.pow_card_sub_one_eq_one a ha

end ExtK

/-! ## Bridge from the concrete `ExtElem` to `ExtK` -/

def toExtK (a : ExtElem) : ExtK := ⟨(a.c0 : K), (a.c1 : K), (a.c2 : K), (a.c3 : K)⟩

theorem toExtK_add (a b : ExtElem) : toExtK (ExtElem.add a b) = toExtK a + toExtK b := by
  ext <;> simp only [toExtK, ExtElem.add, Elem.add_toK,
    ExtK.add_c0, ExtK.add_c1, ExtK.add_c2, ExtK.add_c3]

theorem toExtK_mul (a b : ExtElem) : toExtK (ExtElem.mul a b) = toExtK a * toExtK b := by
  ext <;> simp only [toExtK, ExtElem.mul, Elem.add_toK, Elem.mul_toK, NBETA_toK,
    ExtK.mul_c0, ExtK.mul_c1, ExtK.mul_c2, ExtK.mul_c3] <;> ring

theorem toExtK_one : toExtK ExtElem.one = 1 := by
  have h1 : ExtElem.one = ⟨1, 0, 0, 0⟩ := by decide
  rw [h1]
  ext <;> simp [toExtK, ExtK.one_def]

theorem toExtK_zero : toExtK ExtElem.zero = 0 := by
  have h1 : ExtElem.zero = ⟨0, 0, 0, 0⟩ := by decide
  rw [h1]
  ext <;> simp [toExtK, ExtK.zero_def]

theorem toExtK_powAux {fuel : Nat} {tot x : ExtElem} {n : Nat} (h : n ≤ fuel) :
    toExtK (ExtElem.powAux fuel tot x n) = toExtK tot * toExtK x ^ n := by
  induction fuel generalizing tot x n with
  | zero =>
    have hn : n = 0 := Nat.le_zero.mp h
    subst hn
    simp [ExtElem.powAux]
  | succ fuel ih =>
    simp only [ExtElem.powAux]
    split
    · next hn => subst hn; simp
    · next hn =>
      have hfuel : n / 2 ≤ fuel := by omega
      rw [ih hfuel]
      have hsplit : n = 2 * (n / 2) + n % 2 := (Nat.div_add_mod n 2).symm
      rcases Nat.mod_two_eq_zero_or_one n with h2 | h2
      · rw [if_neg (by omega), toExtK_mul]
        calc toExtK tot * (toExtK x * toExtK x) ^ (n / 2)
            = toExtK tot * toExtK x ^ (2 * (n / 2) + n % 2) := by
              rw [h2, Nat.add_zero, pow_mul]
              ring
          _ = toExtK tot * toExtK x ^ n := by rw [← hsplit]
      · rw [if_pos h2, toExtK_mul, toExtK_mul]
        calc toExtK tot * toExtK x * (toExtK x * toExtK x) ^ (n / 2)
            = toExtK tot * toExtK x ^ (2 * (n / 2) + n % 2) := by
              rw [h2, pow_succ, pow_mul]
              ring
          _ = toExtK tot * toExtK x ^ n := by rw [← hsplit]

theorem toExtK_pow (x : ExtElem) (n : Nat) : toExtK (ExtElem.pow x n) = toExtK x ^ n := by
  rw [ExtElem.pow, toExtK_powAux le_rfl,
    show ExtElem.from_u32 1 = ExtElem.one from rfl, toExtK_one, one_mul]

theorem toExtK_inv {a : ExtElem} (ha : a.canon) :
    toExtK (ExtElem.inv a) = ExtK.inv (toExtK a) := by
  obtain ⟨x0, x1, x2, x3⟩ := a
  obtain ⟨h0, h1, h2, h3⟩ := ha
  ext <;> simp only [toExtK, ExtElem.inv, ExtK.inv, Elem.add_toK, Elem.mul_toK, Elem.sub_toK,
    Elem.neg_toK, Elem.inv_toK, BETA_toK, NBETA_toK, Elem.mul_lt, h0, h1, h2, h3]

theorem toExtK_inj {a b : ExtElem} (ha : a.canon) (hb : b.canon) (h : toExtK a = toExtK b) :
    a = b := by
  obtain ⟨x0, x1, x2, x3⟩ := a
  obtain ⟨y0, y1, y2, y3⟩ := b
  obtain ⟨ha0, ha1, ha2, ha3⟩ := ha
  obtain ⟨hb0, hb1, hb2, hb3⟩ := hb
  simp only [toExtK, ExtK.mk.injEq] at h
  obtain ⟨e0, e1, e2, e3⟩ := h
  simp only [ExtElem.mk.injEq]
  exact ⟨toK_inj ha0 hb0 e0, toK_inj ha1 hb1 e1, toK_inj ha2 hb2 e2, toK_inj ha3 hb3 e3⟩

theorem toExtK_ne_zero {a : ExtElem} (ha : a.canon) (h : a ≠ ExtElem.zero) :
    toExtK a ≠ 0 := by
  intro h0
  exact h (toExtK_inj ha ExtElem.zero_canon (by rw [h0, toExtK_zero]))

/-- C2: for every canonical nonzero `ExtElem`, the specialized conjugate inversion
produces the multiplicative inverse, and agrees with `pow (P^4 - 2)`. -/
theorem claim_C2 (a : ExtElem) (ha : a.canon) (hne : a ≠ ExtElem.zero) :
    ExtElem.mul (ExtElem.inv a) a = ExtElem.one ∧
    ExtElem.inv a = ExtElem.pow a (P ^ 4 - 2) := by
  have hKne := toExtK_ne_zero ha hne
  have hinv : toExtK (ExtElem.inv a) = (toExtK a)⁻¹ := by
    rw [toExtK_inv ha]
    rfl
  constructor
  · apply toExtK_inj (ExtElem.mul_canon _ _) ExtElem.one_canon
    rw [toExtK_mul, hinv, toExtK_one]
    exact inv_mul_cancel₀ hKne
  · apply toExtK_inj (ExtElem.inv_canon _) (ExtElem.pow_canon _ _)
    rw [hinv, toExtK_pow]
    symm
    apply eq_inv_of_mul_eq_one_left
    rw [← pow_succ]
    have he : P ^ 4 - 2 + 1 = P ^ 4 - 1 := by
      have h2 : 2 ≤ P ^ 4 := le_trans (by simp only [P]; omega) (Nat.le_self_pow (by omega) P)
      omega
    rw [he]
    exact ExtK.fermat_extK _ hKne

/-- Witness for C2 at `a = [0, 0, 1, 0]` (the polynomial `x^2`). -/
theorem claim_C2_witness :
    ExtElem.mul (ExtElem.inv ⟨0, 0, 1, 0⟩) ⟨0, 0, 1, 0⟩ = ExtElem.one ∧
    ExtElem.inv ⟨0, 0, 1, 0⟩ = ExtElem.pow ⟨0, 0, 1, 0⟩ (P ^ 4 - 2) :=
  claim_C2 ⟨0, 0, 1, 0⟩ (by decide) (by decide)

/-! ## C3: the multiplication law as polynomial multiplication plus reduction -/

/-- Modelled from the spec: multiply the two degree-3 polynomials
(product coefficients `p_0 .. p_6`), then reduce with the identity `x^4 ≡ r`:
`out_k = (p_k + r * p_(k+4)) mod P`. -/
def specMulReduce (r : Nat) (a b : ExtElem) : ExtElem :=
  ⟨(a.c0 * b.c0 + r * (a.c1 * b.c3 + a.c2 * b.c2 + a.c3 * b.c1)) % P,
   (a.c0 * b.c1 + a.c1 * b.c0 + r * (a.c2 * b.c3 + a.c3 * b.c2)) % P,
   (a.c0 * b.c2 + a.c1 * b.c1 + a.c2 * b.c0 + r * (a.c3 * b.c3)) % P,
   (a.c0 * b.c3 + a.c1 * b.c2 + a.c2 * b.c1 + a.c3 * b.c0) % P⟩

theorem specMulReduce_canon (r : Nat) (a b : ExtElem) : (specMulReduce r a b).canon := by
  refine ⟨?_, ?_, ?_, ?_⟩ <;> exact Nat.mod_lt _ (by simp only [P]; omega)

theorem Pm11_toK : ((P - 11 : Nat) : K) = (-11 : K) := by
  rw [Nat.cast_sub (by simp only [P]; omega), ZMod.natCast_self]
  push_cast
  ring

/-- C3 (counterexample to the claim as stated): multiplying `x^2` by `x^2` yields
`-11 mod P = 2013265910` in coefficient 0, not the `11` that reduction modulo
`x^4 - 11` would give. -/
theorem claim_C3_counterexample :
    ExtElem.mul ⟨0, 0, 1, 0⟩ ⟨0, 0, 1, 0⟩ = ⟨2013265910, 0, 0, 0⟩ ∧
    specMulReduce 11 ⟨0, 0, 1, 0⟩ ⟨0, 0, 1, 0⟩ = ⟨11, 0, 0, 0⟩ ∧
    ExtElem.mul ⟨0, 0, 1, 0⟩ ⟨0, 0, 1, 0⟩ ≠ specMulReduce 11 ⟨0, 0, 1, 0⟩ ⟨0, 0, 1, 0⟩ := by
  decide

/-- C3 (amended): the full multiply equals polynomial multiplication followed by
reduction modulo `x^4 + 11` (`x^4 ≡ -11 ≡ P - 11`), with the explicit bilinear
coefficient forms using `c = -11 mod P`. -/
theorem claim_C3 (a b : ExtElem) :
    ExtElem.mul a b = specMulReduce (P - 11) a b := by
  apply toExtK_inj (ExtElem.mul_canon a b) (specMulReduce_canon _ a b)
  rw [toExtK_mul]
  ext <;> simp only [toExtK, specMulReduce, ZMod.natCast_mod,
    ExtK.mul_c0, ExtK.mul_c1, ExtK.mul_c2, ExtK.mul_c3] <;> push_cast [Pm11_toK] <;> ring

/-! ## C4: canonicity of every operation -/

/-- C4: every base-field operation yields a value in `[0, P)`, and every
extension-field operation yields four canonical coefficients. -/
theorem claim_C4 (a b v n x0 : Nat) (x y : ExtElem) (ha : a < P) (hb : b < P)
    (hx : x.canon) (hy : y.canon) :
    Elem.new x0 < P ∧ Elem.fromU64 x0 < P ∧
    Elem.add a b < P ∧ Elem.sub a b < P ∧ Elem.mul a b < P ∧
    Elem.neg a < P ∧ Elem.pow a n < P ∧ Elem.inv a < P ∧ Elem.random v < P ∧
    (ExtElem.from_u32 x0).canon ∧ (ExtElem.fromElem a).canon ∧
    (ExtElem.add x y).canon ∧ (ExtElem.sub x y).canon ∧ (ExtElem.neg x).canon ∧
    (ExtElem.scale x a).canon ∧ (ExtElem.mul x y).canon ∧ (ExtElem.pow x n).canon ∧
    (ExtElem.inv x).canon :=
  ⟨Elem.new_lt x0, Elem.fromU64_lt x0, Elem.add_lt ha hb, Elem.sub_lt ha hb, Elem.mul_lt a b,
   Elem.neg_lt ha, Elem.pow_lt a n, Elem.inv_lt a, Elem.random_lt v,
   ExtElem.from_u32_canon x0, ExtElem.fromElem_canon ha,
   ExtElem.add_canon hx hy, ExtElem.sub_canon hx hy, ExtElem.neg_canon hx,
   ExtElem.scale_canon x a, ExtElem.mul_canon x y, ExtElem.pow_canon x n,
   ExtElem.inv_canon x⟩

/-- Witness for C4 at concrete inputs. -/
theorem claim_C4_witness :
    Elem.new 7 < P ∧ Elem.fromU64 7 < P ∧
    Elem.add 5 2013265920 < P ∧ Elem.sub 5 2013265920 < P ∧ Elem.mul 5 2013265920 < P ∧
    Elem.neg 5 < P ∧ Elem.pow 5 3 < P ∧ Elem.inv 5 < P ∧ Elem.random 9 < P ∧
    (ExtElem.from_u32 7).canon ∧ (ExtElem.fromElem 5).canon ∧
    (ExtElem.add ⟨1, 2, 3, 4⟩ ⟨5, 6, 7, 8⟩).canon ∧ (ExtElem.sub ⟨1, 2, 3, 4⟩ ⟨5, 6, 7, 8⟩).canon ∧
    (ExtElem.neg ⟨1, 2, 3, 4⟩).canon ∧ (ExtElem.scale ⟨1, 2, 3, 4⟩ 5).canon ∧
    (ExtElem.mul ⟨1, 2, 3, 4⟩ ⟨5, 6, 7, 8⟩).canon ∧ (ExtElem.pow ⟨1, 2, 3, 4⟩ 3).canon ∧
    (ExtElem.inv ⟨1, 2, 3, 4⟩).canon :=
  claim_C4 5 2013265920 9 3 7 ⟨1, 2, 3, 4⟩ ⟨5, 6, 7, 8⟩ (by decide) (by decide)
    (by decide) (by decide)

/-! ## C7: the embedding of the base field is a ring homomorphism -/

/-- C7: `v ↦ [v, 0, 0, 0]` preserves addition, multiplication, zero and one, and
`from(5) * from(5) = from(25)`. -/
theorem claim_C7 (a b : Nat) (ha : a < P) (hb : b < P) :
    ExtElem.add (ExtElem.fromElem a) (ExtElem.fromElem b) = ExtElem.fromElem (Elem.add a b) ∧
    ExtElem.mul (ExtElem.fromElem a) (ExtElem.fromElem b) = ExtElem.fromElem (Elem.mul a b) ∧
    ExtElem.fromElem 0 = ExtElem.zero ∧
    ExtElem.fromElem 1 = ExtElem.one ∧
    ExtElem.mul (ExtElem.from_u32 5) (ExtElem.from_u32 5) = ExtElem.from_u32 25 := by
  have hP0 : (0 : Nat) < P := by simp only [P]; omega
  have hfca : (ExtElem.fromElem a).canon := ⟨ha, hP0, hP0, hP0⟩
  have hfcb : (ExtElem.fromElem b).canon := ⟨hb, hP0, hP0, hP0⟩
  refine ⟨?_, ?_, by decide, by decide, by decide⟩
  · apply toExtK_inj (ExtElem.add_canon hfca hfcb) ⟨Elem.add_lt ha hb, hP0, hP0, hP0⟩
    rw [toExtK_add]
    ext <;> simp only [toExtK, ExtElem.fromElem, Elem.add_toK,
      ExtK.add_c0, ExtK.add_c1, ExtK.add_c2, ExtK.add_c3] <;> push_cast <;> ring
  · apply toExtK_inj (ExtElem.mul_canon _ _) ⟨Elem.mul_lt a b, hP0, hP0, hP0⟩
    rw [toExtK_mul]
    ext <;> simp only [toExtK, ExtElem.fromElem, Elem.mul_toK,
      ExtK.mul_c0, ExtK.mul_c1, ExtK.mul_c2, ExtK.mul_c3] <;> push_cast <;> ring

/-- Witness for C7 at `a = 5`, `b = 7`. -/
theorem claim_C7_witness :
    ExtElem.add (ExtElem.fromElem 5) (ExtElem.fromElem 7) = ExtElem.fromElem (Elem.add 5 7) ∧
    ExtElem.mul (ExtElem.fromElem 5) (ExtElem.fromElem 7) = ExtElem.fromElem (Elem.mul 5 7) ∧
    ExtElem.fromElem 0 = ExtElem.zero ∧
    ExtElem.fromElem 1 = ExtElem.one ∧
    ExtElem.mul (ExtElem.from_u32 5) (ExtElem.from_u32 5) = ExtElem.from_u32 25 :=
  claim_C7 5 7 (by decide) (by decide)

/-! ## C8: inversion of zero yields zero, and the inversion denominator
vanishes exactly at zero -/

/-- The base-field element `c = b0*b0 + BETA*b2*b2` computed inside `ExtElem::inv`. -/
def ExtElem.invDenom (a : ExtElem) : Nat :=
  let b0 := Elem.add (Elem.mul a.c0 a.c0)
    (Elem.mul BETA (Elem.sub (Elem.mul a.c1 (Elem.add a.c3 a.c3)) (Elem.mul a.c2 a.c2)))
  let b2 := Elem.add (Elem.sub (Elem.mul a.c0 (Elem.add a.c2 a.c2)) (Elem.mul a.c1 a.c1))
    (Elem.mul BETA (Elem.mul a.c3 a.c3))
  Elem.add (Elem.mul b0 b0) (Elem.mul (Elem.mul BETA b2) b2)

/-- C8: `inv(0) = 0` in both fields, and the extension inversion's denominator `c`
is zero exactly when the input is zero (for canonical inputs), which is how the
base-field zero-inverse convention propagates. -/
theorem claim_C8 (a : ExtElem) (ha : a.canon) :
    Elem.inv 0 = 0 ∧ ExtElem.inv ExtElem.zero = ExtElem.zero ∧
    (ExtElem.invDenom a = 0 ↔ a = ExtElem.zero) := by
  have hz : ExtElem.inv ExtElem.zero = ExtElem.zero := by
    set_option maxRecDepth 10000 in decide
  refine ⟨by decide, hz, ?_⟩
  constructor
  · intro h
    by_contra hnz
    have hKne := toExtK_ne_zero ha hnz
    have hcomp := (ExtK.ne_zero_iff _).mp hKne
    obtain ⟨x0, x1, x2, x3⟩ := a
    obtain ⟨h0, h1, h2, h3⟩ := ha
    have hc := ExtK.cval_ne_zero (x0 : K) (x1 : K) (x2 : K) (x3 : K)
      (by simpa [toExtK] using hcomp)
    apply hc
    have hcast : ((ExtElem.invDenom ⟨x0, x1, x2, x3⟩ : Nat) : K)
        = ((x0 : K) * (x0 : K) + 11 * ((x1 : K) * ((x3 : K) + (x3 : K)) - (x2 : K) * (x2 : K)))
            * ((x0 : K) * (x0 : K) + 11 * ((x1 : K) * ((x3 : K) + (x3 : K)) - (x2 : K) * (x2 : K)))
          + 11 * ((x0 : K) * ((x2 : K) + (x2 : K)) - (x1 : K) * (x1 : K) + 11 * ((x3 : K) * (x3 : K)))
            * ((x0 : K) * ((x2 : K) + (x2 : K)) - (x1 : K) * (x1 : K) + 11 * ((x3 : K) * (x3 : K))) := by
      simp only [ExtElem.invDenom, Elem.add_toK, Elem.mul_toK, Elem.sub_toK, Elem.mul_lt,
        BETA_toK, h0, h1, h2, h3]
    rw [← hcast, h, Nat.cast_zero]
  · intro h
    subst h
    decide

/-- Witness for C8 at `a = [0, 0, 0, 0]`. -/
theorem claim_C8_witness :
    Elem.inv 0 = 0 ∧ ExtElem.inv ExtElem.zero = ExtElem.zero ∧
    (ExtElem.invDenom ⟨0, 0, 0, 0⟩ = 0 ↔ (⟨0, 0, 0, 0⟩ : ExtElem) = ExtElem.zero) :=
  claim_C8 ⟨0, 0, 0, 0⟩ (by decide)

/-! ## C6: the roots-of-unity tables -/

/-- `const MAX_ROU_PO2: usize = 27;` -/
def MAX_ROU_PO2 : Nat := 27

/-- `const ROU_FWD: &'static [Elem]` (all literals are below `P`, so `Elem::new` is
the identity on them). -/
def ROU_FWD : List Nat :=
  [1, 2013265920, 284861408, 1801542727, 567209306, 740045640, 918899846, 1881002012,
   1453957774, 65325759, 1538055801, 515192888, 483885487, 157393079, 1695124103, 2005211659,
   1540072241, 88064245, 1542985445, 1269900459, 1461624142, 825701067, 682402162, 1311873874,
   1164520853, 352275361, 18769, 137]

/-- `const ROU_REV: &'static [Elem]`. -/
def ROU_REV : List Nat :=
  [1, 2013265920, 1728404513, 1592366214, 196396260, 1253260071, 72041623, 1091445674,
   145223211, 1446820157, 1030796471, 2010749425, 1827366325, 1239938613, 246299276,
   596347512, 1893145354, 246074437, 1525739923, 1194341128, 1463599021, 704606912, 95395244,
   15672543, 647517488, 584175179, 137728885, 749463956]

/-- C6: for every index `i` in `0..=27`, `ROU_FWD[i] * ROU_REV[i] = 1` and
`ROU_FWD[i]^(2^i) = 1`, while `ROU_FWD[i]^(2^(i-1)) ≠ 1` for `i ≥ 1`
(stated with the shifted index `i+1`); `MAX_ROU_PO2 = 27` bounds the indices. -/
theorem claim_C6 :
    MAX_ROU_PO2 = 27 ∧ ROU_FWD.length = MAX_ROU_PO2 + 1 ∧ ROU_REV.length = MAX_ROU_PO2 + 1 ∧
    (∀ i : Fin 28, Elem.mul (ROU_FWD.getD i 0) (ROU_REV.getD i 0) = 1 ∧
      Elem.pow (ROU_FWD.getD i 0) (2 ^ (i : Nat)) = 1) ∧
    (∀ i : Fin 27, Elem.pow (ROU_FWD.getD ((i : Nat) + 1) 0) (2 ^ (i : Nat)) ≠ 1) := by
  decide

/-- Witness for C6, instantiating the quantified parts at index 27 (forward and
reverse table entries for the largest transform size). -/
theorem claim_C6_witness :
    Elem.mul (ROU_FWD.getD 27 0) (ROU_REV.getD 27 0) = 1 ∧
    Elem.pow (ROU_FWD.getD 27 0) (2 ^ 27) = 1 ∧
    Elem.pow (ROU_FWD.getD 27 0) (2 ^ 26) ≠ 1 :=
  ⟨(claim_C6.2.2.2.1 ⟨27, by omega⟩).1, (claim_C6.2.2.2.1 ⟨27, by omega⟩).2,
    claim_C6.2.2.2.2 ⟨26, by omega⟩⟩

end BabyBear

namespace Guest

/-! ## The guest I/O channel (`io.rs::host_sendrecv`)

The request side (writing channel id, length and pointer to the GPIO addresses) has
no observable effect on the cursor-and-response behaviour modelled here; the response
side is modelled exactly: `input` gives the 32-bit word at each index of the `INPUT`
region, `len` is `memory::INPUT.len_words()`, and `readPtr` is the `READ_PTR` cursor
(in words).  A failed `assert!` is modelled as `none`. -/

/-- Modelled from the spec: `WORD_SIZE` comes from the platform crate (not under
`src/`); the response words are 32-bit, so a word is 4 bytes. -/
def WORD_SIZE : Nat := 4

/-- Result of a successful `host_sendrecv` call: the response slice (as a list of
words), the byte count, and the new cursor. -/
structure SendrecvResult where
  data : List Nat
  nbytes : Nat
  newPtr : Nat
deriving DecidableEq

/-- `host_sendrecv`, receive side: read the byte-count header at the cursor, advance
the cursor by one word, compute the word count `(nbytes + WORD_SIZE - 1) / WORD_SIZE`,
assert `*read_ptr + response_nwords < INPUT.len_words()`, return the slice and
advance the cursor past it. -/
def host_sendrecv (input : Nat → Nat) (len : Nat) (readPtr : Nat) : Option SendrecvResult :=
  let response_nbytes := input readPtr
  let ptr1 := readPtr + 1
  let response_nwords := (response_nbytes + WORD_SIZE - 1) / WORD_SIZE
  if ptr1 + response_nwords < len then
    some ⟨(List.range response_nwords).map (fun i => input (ptr1 + i)),
      response_nbytes, ptr1 + response_nwords⟩
  else
    none

/-- The number of payload words a call at cursor `p` will consume. -/
def nwordsAt (input : Nat → Nat) (p : Nat) : Nat :=
  (input p + WORD_SIZE - 1) / WORD_SIZE

/-- C9 (counterexample to the claim as stated): with a one-word input region and a
zero byte count, the advanced cursor `1` does not exceed the capacity `1`, yet the
call is fatal, because the source asserts the strict bound
`*read_ptr + response_nwords < INPUT.len_words()`. -/
theorem claim_C9_counterexample :
    host_sendrecv (fun _ => 0) 1 0 = none ∧
    ¬(0 + 1 + nwordsAt (fun _ => 0) 0 > 1) := by
  constructor
  · rfl
  · decide

/-- C9 (amended): the response is a byte-count header followed by
`ceil(nbytes / WORD_SIZE)` payload words; on success the slice has exactly that many
words and the cursor advances by `1 + ceil(nbytes / WORD_SIZE)`; the call is fatal
if and only if the advanced cursor would fail to stay strictly below the input
region's capacity (i.e. advanced cursor `≥ len`). -/
theorem claim_C9 (input : Nat → Nat) (len readPtr : Nat) :
    (host_sendrecv input len readPtr = none ↔
      len ≤ readPtr + 1 + nwordsAt input readPtr) ∧
    (∀ r : SendrecvResult, host_sendrecv input len readPtr = some r →
      r.data.length = nwordsAt input readPtr ∧
      r.newPtr = readPtr + 1 + nwordsAt input readPtr ∧
      r.nbytes = input readPtr) := by
  constructor
  · simp only [host_sendrecv, nwordsAt]
    split
    · next hlt =>
      simp only [reduceCtorEq, false_iff]
      omega
    · next hge =>
      simp only [true_iff]
      omega
  · intro r hr
    simp only [host_sendrecv, nwordsAt] at hr
    split at hr
    · next hlt =>
      obtain rfl := Option.some.inj hr
      refine ⟨?_, ?_, rfl⟩
      · simp [nwordsAt]
      · simp [nwordsAt]
    · exact absurd hr (by simp)

/-- Witness for C9 at `input = const 5`, `len = 10`, `readPtr = 0`: the call succeeds,
returning two payload words and cursor 3. -/
theorem claim_C9_witness :
    ((host_sendrecv (fun _ => 5) 10 0 = none ↔ 10 ≤ 0 + 1 + nwordsAt (fun _ => 5) 0) ∧
      (∀ r : SendrecvResult, host_sendrecv (fun _ => 5) 10 0 = some r →
        r.data.length = nwordsAt (fun _ => 5) 0 ∧
        r.newPtr = 0 + 1 + nwordsAt (fun _ => 5) 0 ∧
        r.nbytes = (fun _ => 5) 0)) ∧
    host_sendrecv (fun _ => 5) 10 0 = some ⟨[5, 5], 5, 3⟩ :=
  ⟨claim_C9 (fun _ => 5) 10 0, rfl⟩

/-- Iterated calls: perform `n` successive `host_sendrecv` calls starting at the
given cursor, failing if any call fails. -/
def iterSendrecv (input : Nat → Nat) (len : Nat) : Nat → Nat → Option Nat
  | 0, readPtr => some readPtr
  | n + 1, readPtr =>
    match host_sendrecv input len readPtr with
    | none => none
    | some r => iterSendrecv input len n r.newPtr

theorem host_sendrecv_some_lt {input : Nat → Nat} {len readPtr : Nat}
    {r : SendrecvResult} (h : host_sendrecv input len readPtr = some r) :
    r.newPtr < len := by
  simp only [host_sendrecv] at h
  split at h
  · next hlt =>
    obtain rfl := Option.some.inj h
    exact hlt
  · exact absurd h (by simp)

/-- C10: every call that returns without panicking leaves the cursor strictly below
the capacity, and starting from cursor 0 in a nonempty input region, every sequence
of successful calls keeps the cursor strictly below the capacity, so the unchecked
header read at the start of every call is inside the input region. -/
theorem claim_C10 (input : Nat → Nat) (len : Nat) (hlen : 0 < len) :
    (∀ (q : Nat) (r : SendrecvResult), host_sendrecv input len q = some r →
      r.newPtr < len) ∧
    (∀ (n p : Nat), iterSendrecv input len n 0 = some p → p < len) := by
  refine ⟨fun q r hr => host_sendrecv_some_lt hr, ?_⟩
  have hstep : ∀ (n : Nat) (q p : Nat), q < len → iterSendrecv input len n q = some p →
      p < len := by
    intro n
    induction n with
    | zero =>
      intro q p hq hit
      simp only [iterSendrecv] at hit
      obtain rfl := Option.some.inj hit
      exact hq
    | succ n ih =>
      intro q p hq hit
      simp only [iterSendrecv] at hit
      rcases hr : host_sendrecv input len q with _ | r
      · rw [hr] at hit
        exact absurd hit (by simp)
      · rw [hr] at hit
        exact ih r.newPtr p (host_sendrecv_some_lt hr) hit
  intro n p
  exact hstep n 0 p hlen

/-- Witness for C10 at `input = const 0`, `len = 2`, one successful call ending at
cursor 1. -/
theorem claim_C10_witness :
    (0 : Nat) < 2 ∧ iterSendrecv (fun _ => 0) 2 1 0 = some 1 ∧ (1 : Nat) < 2 :=
  ⟨by decide, rfl, (claim_C10 (fun _ => 0) 2 (by decide)).2 1 1 rfl⟩

end Guest
